import Mathlib

/-!
Verification of the VibeClaw skill-installer pipeline.

This file gives a shallow embedding of the installer code: the security
gate over catalog resource records, the skill-name sanitizer, the
GitHub URL prober with its frontmatter validation, and the
install / list / uninstall operations.  Filesystem and network effects
are made explicit: stateful operations take a filesystem value and an
oracle for HTTP fetches, and return an event trace alongside their
result, so that claims about which operations were (not) performed
become provable statements.
-/

namespace VibeClaw

/-- Characters admitted by the sanitizer regex replace: the code removes
every character outside a-z, A-Z, 0-9, hyphen, underscore and dot. -/
def allowedChar (c : Char) : Bool :=
  ('a' ≤ c && c ≤ 'z') || ('A' ≤ c && c ≤ 'Z') || ('0' ≤ c && c ≤ '9')
    || c == '-' || c == '_' || c == '.'

/-- Whether pattern `pat` occurs in `s` starting exactly at index `i`. -/
def matchesAt (s pat : List Char) (i : Nat) : Bool :=
  ((s.drop i).take pat.length) == pat

/-- Scan for the first match of `pat` in `s` at index `i` or later,
examining `fuel` consecutive start positions. -/
def findFromAux (s pat : List Char) : Nat → Nat → Option Nat
  | _, 0 => none
  | i, fuel + 1 =>
    if matchesAt s pat i then some i else findFromAux s pat (i + 1) fuel

/-- JS `String.prototype.indexOf(pat, start)` for a nonempty pattern:
index of the first occurrence at or after `start`, or -1. -/
def jsIndexOf (s pat : List Char) (start : Nat) : Int :=
  match findFromAux s pat start (s.length + 1 - start) with
  | some i => (i : Int)
  | none => -1

/-- JS `String.prototype.includes(pat)` for a nonempty pattern. -/
def includesSub (s pat : List Char) : Bool :=
  (findFromAux s pat 0 (s.length + 1)).isSome

/-- The single-dot pattern used by the leading-dot check. -/
def dotChars : List Char := ['.']

/-- The `..` pattern of the traversal check. -/
def dotdotChars : List Char := ['.', '.']

/-- The `../` pattern named by the spec's traversal test. -/
def dotdotSlashChars : List Char := ['.', '.', '/']

/-- The `---` frontmatter delimiter. -/
def dashChars : List Char := ['-', '-', '-']

/-- The `name:` field marker. -/
def nameFieldChars : List Char := ['n', 'a', 'm', 'e', ':']

/-- Source: `sanitizeSkillName` in skill-installer.ts.  Strips every
character outside the allowed set, rejects an empty result, a result
containing `..`, or one starting with `.`, then checks that the path
resolved under the installation root starts with the root plus the
separator.  `path.resolve(root, seg)` is modelled for an absolute root
and a separator-free segment (which the earlier checks guarantee) as
`root ++ "/" ++ seg`, at the character-list level. -/
def sanitizeSkillName (root name : String) : Option String :=
  let s := name.data.filter allowedChar
  if s.isEmpty || includesSub s dotdotChars || matchesAt s dotChars 0 then
    none
  else if matchesAt (root.data ++ '/' :: s) (root.data ++ ['/']) 0 then
    some (String.mk s)
  else
    none

/-- Source: the `base` template literal of `getSkillMdUrls`. -/
def githubBase (owner repo : String) : String :=
  "https://raw.githubusercontent.com/" ++ owner ++ "/" ++ repo

/-- Source: `getSkillMdUrls` in skill-installer.ts — the six candidate
raw-content URLs, in the order the code lists them. -/
def getSkillMdUrls (owner repo skillName : String) : List String :=
  [ githubBase owner repo ++ "/main/skills/" ++ skillName ++ "/SKILL.md"
  , githubBase owner repo ++ "/master/skills/" ++ skillName ++ "/SKILL.md"
  , githubBase owner repo ++ "/main/SKILL.md"
  , githubBase owner repo ++ "/master/SKILL.md"
  , githubBase owner repo ++ "/main/src/skills/" ++ skillName ++ "/SKILL.md"
  , githubBase owner repo ++ "/master/src/skills/" ++ skillName ++ "/SKILL.md" ]

/-- Source: the frontmatter validation inside `downloadSkillMd`:
`content.startsWith("---") && content.indexOf("---", 3) > 3 &&
content.includes("name:")`. -/
def validSkillMd (content : String) : Bool :=
  matchesAt content.data dashChars 0
    && decide ((3 : Int) < jsIndexOf content.data dashChars 3)
    && includesSub content.data nameFieldChars

/-- Outcome of one HTTP fetch: a thrown transport error, or a response
with its `ok` flag and body text. -/
inductive FetchResult where
  | err : FetchResult
  | resp (ok : Bool) (body : String) : FetchResult
deriving DecidableEq

/-- A candidate is skipped when the fetch throws, the response is not
`ok`, or the body fails the frontmatter validation. -/
def probeFails : FetchResult → Bool
  | .err => true
  | .resp ok body => !(ok && validSkillMd body)

/-- Source: the probing loop of `downloadSkillMd`.  Tries each URL in
order; a transport error or a failed `ok`/validation check advances to
the next candidate; the first validated hit is returned at once.  The
second component records every URL actually fetched, in order. -/
def probeAux (oracle : String → FetchResult) : List String → Option (String × String) × List String
  | [] => (none, [])
  | url :: rest =>
    match oracle url with
    | .err =>
      let p := probeAux oracle rest
      (p.1, url :: p.2)
    | .resp ok body =>
      if ok && validSkillMd body then (some (body, url), [url])
      else
        let p := probeAux oracle rest
        (p.1, url :: p.2)

/-- Source: `downloadSkillMd` in skill-installer.ts, with the fetched
URLs recorded. -/
def downloadSkillMd (oracle : String → FetchResult) (owner repo skillName : String) :
    Option (String × String) × List String :=
  probeAux oracle (getSkillMdUrls owner repo skillName)

/-- Name of the skill content file. -/
def skillMdName : String := "SKILL.md"

/-- Name of the Install Record file. -/
def metaFileName : String := ".vibeclaw.json"

/-- `path.join` modelled for a normalized directory and a plain
segment. -/
def pathJoin (a b : String) : String := a ++ "/" ++ b

/-- Filesystem model: a finite map from file paths to contents and a
set of existing directories, both as lists. -/
structure FS where
  files : List (String × String)
  dirs : List String
deriving DecidableEq

/-- `fs.access(p)` succeeding on a file path. -/
def accessFile (fs : FS) (p : String) : Bool :=
  fs.files.any (fun e => e.1 == p)

/-- `fs.writeFile(p, c)`: replace or create the file at `p`. -/
def writeFile (fs : FS) (p c : String) : FS :=
  { fs with files := (p, c) :: fs.files.filter (fun e => !(e.1 == p)) }

/-- `fs.mkdir(p, recursive)`: idempotent directory creation. -/
def mkdirRec (fs : FS) (p : String) : FS :=
  { fs with dirs := if fs.dirs.contains p then fs.dirs else p :: fs.dirs }

/-- `fs.rm(p, recursive)`: delete the directory and everything below
it. -/
def rmTree (fs : FS) (p : String) : FS :=
  { files := fs.files.filter (fun e => !(e.1 == p || matchesAt e.1.data (p.data ++ ['/']) 0)),
    dirs := fs.dirs.filter (fun d => !(d == p || matchesAt d.data (p.data ++ ['/']) 0)) }

/-- One observable filesystem or network operation. -/
inductive Ev where
  | access (p : String)
  | fetch (u : String)
  | mkdir (p : String)
  | write (p c : String)
  | rm (p : String)
deriving DecidableEq

/-- Effect of one event on the filesystem; reads and fetches leave it
unchanged. -/
def applyEv (fs : FS) : Ev → FS
  | .access _ => fs
  | .fetch _ => fs
  | .mkdir p => mkdirRec fs p
  | .write p c => writeFile fs p c
  | .rm p => rmTree fs p

/-- Replay an event trace on a filesystem. -/
def applyEvents (fs : FS) (tr : List Ev) : FS := tr.foldl applyEv fs

/-- Source: the `InstallResult` interface of skill-installer.ts. -/
structure InstallResult where
  success : Bool
  skillName : String
  installPath : Option String := none
  sourceUrl : Option String := none
  error : Option String := none
  alreadyInstalled : Option Bool := none
deriving DecidableEq

/-- The invalid-name error message of `installSkillFromGitHub`. -/
def invalidNameMsg (skillName : String) : String :=
  "Invalid skill name \"" ++ skillName ++ "\". Names must be alphanumeric with hyphens/underscores only."

/-- The exhausted-probe error message of `installSkillFromGitHub`. -/
def notFoundMsg (owner repo skillName : String) : String :=
  "Could not find SKILL.md for \"" ++ skillName ++ "\" in " ++ owner ++ "/" ++ repo ++ ". Tried multiple paths."

/-- String escaping of `JSON.stringify` restricted to quote and
backslash. -/
def jsonEscape (s : String) : String :=
  String.mk (s.data.foldr (fun c acc => if c == '"' || c == '\\' then '\\' :: c :: acc else c :: acc) [])

/-- Source: the tracking metadata object written by
`installSkillFromGitHub`, serialized as `JSON.stringify(meta, null, 2)`
with the install timestamp passed in as `now`. -/
def metaJson (owner repo url skillName now : String) : String :=
  "\x7b\n  \"installedBy\": \"vibeclaw\",\n  \"installedAt\": \"" ++ jsonEscape now
    ++ "\",\n  \"source\": \"" ++ jsonEscape ("github:" ++ owner ++ "/" ++ repo)
    ++ "\",\n  \"sourceUrl\": \"" ++ jsonEscape url
    ++ "\",\n  \"skillName\": \"" ++ jsonEscape skillName ++ "\"\n\x7d"

/-- Source: `installSkillFromGitHub` in skill-installer.ts.  Sanitize,
check for an existing content file, probe GitHub, then create the
directory and write content followed by the Install Record.  `root`
stands for the SKILLS_DIR constant, `now` for the install timestamp,
and `oracle` for the network.  Returns the result together with the
trace of filesystem and network operations performed, in order. -/
def installSkillFromGitHub (root now : String) (oracle : String → FetchResult) (fs : FS)
    (owner repo skillName : String) (force : Bool) : InstallResult × List Ev :=
  match sanitizeSkillName root skillName with
  | none =>
    ({ success := false, skillName := skillName, error := some (invalidNameMsg skillName) }, [])
  | some safeName =>
    let skillDir := pathJoin root safeName
    let skillFile := pathJoin skillDir skillMdName
    if accessFile fs skillFile && !force then
      ({ success := true, skillName := skillName, installPath := some skillDir,
         alreadyInstalled := some true }, [Ev.access skillFile])
    else
      match downloadSkillMd oracle owner repo skillName with
      | (none, attempted) =>
        ({ success := false, skillName := skillName, error := some (notFoundMsg owner repo skillName) },
          Ev.access skillFile :: attempted.map Ev.fetch)
      | (some (content, url), attempted) =>
        ({ success := true, skillName := skillName, installPath := some skillDir,
           sourceUrl := some url },
          Ev.access skillFile :: attempted.map Ev.fetch
            ++ [Ev.mkdir skillDir, Ev.write skillFile content,
                Ev.write (pathJoin skillDir metaFileName) (metaJson owner repo url skillName now)])

/-- The name of a direct child of `root`, when `p` is one. -/
def entryNameUnder (root p : String) : Option String :=
  if matchesAt p.data (root.data ++ ['/']) 0 then
    let rest := p.data.drop (root.data.length + 1)
    if rest.isEmpty || rest.contains '/' then none else some (String.mk rest)
  else none

/-- `fs.readdir(root, withFileTypes)`: the entries directly under the
root, each with its is-directory flag, directories first. -/
def readdirEntries (fs : FS) (root : String) : List (String × Bool) :=
  fs.dirs.filterMap (fun d => (entryNameUnder root d).map (fun n => (n, true)))
    ++ fs.files.filterMap (fun e => (entryNameUnder root e.1).map (fun n => (n, false)))

/-- Source: `listInstalledSkills` in skill-installer.ts.  Keeps the
directory entries whose Install Record file is accessible; a missing
installation root yields the empty list. -/
def listInstalledSkills (root : String) (fs : FS) : List String :=
  if fs.dirs.contains root then
    (readdirEntries fs root).filterMap (fun e =>
      if e.2 && accessFile fs (pathJoin (pathJoin root e.1) metaFileName) then some e.1 else none)
  else []

/-- Source: `uninstallSkill` in skill-installer.ts.  Sanitize, check the
Install Record, and remove the whole skill directory. -/
def uninstallSkill (root : String) (fs : FS) (skillName : String) : Bool × List Ev :=
  match sanitizeSkillName root skillName with
  | none => (false, [])
  | some safeName =>
    let skillDir := pathJoin root safeName
    let metaPath := pathJoin skillDir metaFileName
    if accessFile fs metaPath then (true, [Ev.access metaPath, Ev.rm skillDir])
    else (false, [Ev.access metaPath])

/-- Source: the `cisco_scan_result` object shape of `VibeResource` in
vibe-index-client.ts. -/
structure CiscoScanResult where
  is_safe : Bool
  max_severity : String
  findings_count : Nat
deriving DecidableEq

/-- Source: `VibeResource` in vibe-index-client.ts, restricted to the
fields `checkSecurity` and its helpers read; `security_score` is kept
as an integer. -/
structure VibeResource where
  name : String
  security_score : Option Int
  security_flags : Option (List String)
  cisco_scan_result : Option CiscoScanResult
deriving DecidableEq

/-- The optional flag line of both block messages:
`skill.security_flags?.length ? ... : ""`. -/
def flagsSuffix (skill : VibeResource) : String :=
  match skill.security_flags with
  | some (f :: fs) => "  Flags: " ++ String.intercalate ", " (f :: fs) ++ "\n"
  | _ => ""

/-- The deep-scan block message of `checkSecurity`. -/
def deepScanBlockMsg (skill : VibeResource) (scan : CiscoScanResult) : String :=
  "⛔ BLOCKED: \"" ++ skill.name ++ "\" failed Vibe Index security scan.\n\n"
    ++ "  Severity: " ++ scan.max_severity ++ "\n"
    ++ "  Findings: " ++ toString scan.findings_count ++ " issue(s) detected\n"
    ++ flagsSuffix skill
    ++ "\nThis skill has known security issues and cannot be installed.\n"
    ++ "See https://vibeindex.ai for details."

/-- The risk-score block message of `checkSecurity`. -/
def scoreBlockMsg (skill : VibeResource) (score : Int) : String :=
  "⛔ BLOCKED: \"" ++ skill.name ++ "\" has a high security risk score (" ++ toString score ++ ").\n\n"
    ++ flagsSuffix skill
    ++ "\nThis skill has been flagged by Vibe Index security scanning and cannot be installed.\n"
    ++ "See https://vibeindex.ai for details."

/-- The second tier of `checkSecurity`:
`skill.security_score !== null && skill.security_score >= 25`. -/
def checkSecurityScore (skill : VibeResource) : Option String :=
  match skill.security_score with
  | some score => if 25 ≤ score then some (scoreBlockMsg skill score) else none
  | none => none

/-- Source: `checkSecurity` in tools.ts.  A deep scan marking the
resource unsafe blocks unconditionally; otherwise a risk score of 25 or
more blocks; otherwise the install is allowed (`none`). -/
def checkSecurity (skill : VibeResource) : Option String :=
  match skill.cisco_scan_result with
  | some scan =>
    if !scan.is_safe then some (deepScanBlockMsg skill scan)
    else checkSecurityScore skill
  | none => checkSecurityScore skill

/-- Validation predicate written from the spec's words, for comparison
with `validSkillMd`: the body starts with the delimiter, a second
delimiter occurrence lies after position 3, and a `name:` field occurs
between the two delimiters. -/
def specValidSkillMd (content : String) : Bool :=
  matchesAt content.data dashChars 0
    && (List.range (content.data.length + 1)).any (fun j =>
         decide (3 < j) && matchesAt content.data dashChars j
           && (List.range (content.data.length + 1)).any (fun p =>
                decide (3 ≤ p) && decide (p + 5 ≤ j) && matchesAt content.data nameFieldChars p))

/-- Rejection condition written from the spec's words, for comparison
with `sanitizeSkillName`: the stripped result is empty, contains `..`,
starts with `.`, or does not resolve to a strict descendant of the
root. -/
def specRejects (root name : String) : Prop :=
  let s := name.data.filter allowedChar
  s = [] ∨ (∃ j, matchesAt s dotdotChars j = true) ∨ (∃ t, s = '.' :: t)
    ∨ matchesAt (root.data ++ '/' :: s) (root.data ++ ['/']) 0 = false

/-- An oracle on which every fetch throws. -/
def oracleErrAll : String → FetchResult := fun _ => FetchResult.err

/-- A valid skill descriptor body used by concrete scenarios. -/
def sampleBody : String := "---a---name: x"

/-- An oracle on which only the fourth candidate URL for `o/r` and
skill `sk` answers with a valid descriptor. -/
def oracleFourth : String → FetchResult := fun u =>
  if u == "https://raw.githubusercontent.com/o/r/master/SKILL.md" then
    FetchResult.resp true sampleBody
  else FetchResult.err

/-- An oracle on which every fetch answers with a valid descriptor. -/
def oracleHit : String → FetchResult := fun _ => FetchResult.resp true sampleBody

/-- The empty filesystem. -/
def fsEmpty : FS := { files := [], dirs := [] }

/-- A filesystem whose skill directory holds an Install Record but no
content file. -/
def fsRecordOnly : FS :=
  { files := [("/s/sk/.vibeclaw.json", "x")], dirs := ["/s", "/s/sk"] }

/-- A filesystem with two tracked skills and one recordless directory
under the root. -/
def fsTwoTracked : FS :=
  { files := [("/s/alpha/SKILL.md", "a"), ("/s/alpha/.vibeclaw.json", "ma"),
              ("/s/beta/SKILL.md", "b"), ("/s/beta/.vibeclaw.json", "mb"),
              ("/s/gamma/SKILL.md", "c")],
    dirs := ["/s", "/s/alpha", "/s/beta", "/s/gamma"] }

/-- The six candidate locations written from the spec's words: branch-a
is `main`, branch-b is `master`; `skills/<name>/SKILL.md`, then the
repo-root `SKILL.md`, then `src/skills/<name>/SKILL.md`, alternating
branches. -/
def specCandidateUrls (owner repo name : String) : List String :=
  [ "https://raw.githubusercontent.com/" ++ owner ++ "/" ++ repo ++ "/main/skills/" ++ name ++ "/SKILL.md"
  , "https://raw.githubusercontent.com/" ++ owner ++ "/" ++ repo ++ "/master/skills/" ++ name ++ "/SKILL.md"
  , "https://raw.githubusercontent.com/" ++ owner ++ "/" ++ repo ++ "/main/SKILL.md"
  , "https://raw.githubusercontent.com/" ++ owner ++ "/" ++ repo ++ "/master/SKILL.md"
  , "https://raw.githubusercontent.com/" ++ owner ++ "/" ++ repo ++ "/main/src/skills/" ++ name ++ "/SKILL.md"
  , "https://raw.githubusercontent.com/" ++ owner ++ "/" ++ repo ++ "/master/src/skills/" ++ name ++ "/SKILL.md" ]

/-- Events that read but never modify the filesystem. -/
def readOnlyEv : Ev → Bool
  | .access _ => true
  | .fetch _ => true
  | _ => false

/-- Events that leave the file map unchanged (only reads, fetches and
directory creation). -/
def nonWriteEv : Ev → Bool
  | .write _ _ => false
  | .rm _ => false
  | _ => true

/-- Whether an event is a network fetch. -/
def isFetchEv : Ev → Bool
  | .fetch _ => true
  | _ => false

/-!  General lemmas about the string-scanning primitives.  -/

theorem findFromAux_eq_some_iff (s pat : List Char) :
    ∀ (fuel i j : Nat), findFromAux s pat i fuel = some j ↔
      (i ≤ j ∧ j < i + fuel ∧ matchesAt s pat j = true ∧
        ∀ k, i ≤ k → k < j → matchesAt s pat k = false) := by
  intro fuel
  induction fuel with
  | zero =>
    intro i j
    simp only [findFromAux]
    constructor
    · intro h; exact absurd h (by simp)
    · rintro ⟨h1, h2, -, -⟩; exact absurd h2 (by omega)
  | succ n ih =>
    intro i j
    simp only [findFromAux]
    by_cases h : matchesAt s pat i = true
    · rw [if_pos h]
      constructor
      · intro hsome
        have hij : i = j := Option.some_inj.mp hsome
        subst hij
        exact ⟨Nat.le_refl _, by omega, h,
          fun k hk1 hk2 => absurd (Nat.lt_of_le_of_lt hk1 hk2) (Nat.lt_irrefl _)⟩
      · rintro ⟨h1, -, h3, h4⟩
        rcases Nat.eq_or_lt_of_le h1 with rfl | hlt
        · rfl
        · exact absurd h (by simp [h4 i (Nat.le_refl _) hlt])
    · have hfalse : matchesAt s pat i = false := by
        cases hmi : matchesAt s pat i with
        | false => rfl
        | true => exact absurd hmi h
      rw [if_neg h, ih (i + 1) j]
      constructor
      · rintro ⟨h1, h2, h3, h4⟩
        refine ⟨by omega, by omega, h3, fun k hk1 hk2 => ?_⟩
        rcases Nat.eq_or_lt_of_le hk1 with rfl | hlt
        · exact hfalse
        · exact h4 k hlt hk2
      · rintro ⟨h1, h2, h3, h4⟩
        have hij : i ≠ j := by
          rintro rfl; exact h h3
        exact ⟨by omega, by omega, h3, fun k hk1 hk2 => h4 k (by omega) hk2⟩

theorem findFromAux_eq_none_iff (s pat : List Char) :
    ∀ (fuel i : Nat), findFromAux s pat i fuel = none ↔
      ∀ k, i ≤ k → k < i + fuel → matchesAt s pat k = false := by
  intro fuel
  induction fuel with
  | zero =>
    intro i
    simp only [findFromAux]
    constructor
    · intro _ k hk1 hk2; exact absurd hk2 (by omega)
    · intro _; trivial
  | succ n ih =>
    intro i
    simp only [findFromAux]
    by_cases h : matchesAt s pat i = true
    · rw [if_pos h]
      constructor
      · intro hc; exact absurd hc (by simp)
      · intro hall
        exact absurd h (by simp [hall i (Nat.le_refl _) (by omega)])
    · have hfalse : matchesAt s pat i = false := by
        cases hmi : matchesAt s pat i with
        | false => rfl
        | true => exact absurd hmi h
      rw [if_neg h, ih (i + 1)]
      constructor
      · intro hall k hk1 hk2
        rcases Nat.eq_or_lt_of_le hk1 with rfl | hlt
        · exact hfalse
        · exact hall k hlt (by omega)
      · intro hall k hk1 hk2
        exact hall k (by omega) (by omega)

theorem matchesAt_true_iff_split (s pat : List Char) (j : Nat) (hp : pat ≠ []) :
    matchesAt s pat j = true ↔ ∃ a b, s = a ++ pat ++ b ∧ a.length = j := by
  constructor
  · intro h
    have heq : (s.drop j).take pat.length = pat := by
      simpa [matchesAt] using h
    have hlen : pat.length ≤ (s.drop j).length := by
      have := congrArg List.length heq
      simp only [List.length_take] at this
      omega
    have hdlen : (s.drop j).length = s.length - j := List.length_drop j s
    have hppos : 0 < pat.length := List.length_pos.mpr hp
    have hjle : j ≤ s.length := by omega
    have hdj : s.drop j = pat ++ s.drop (j + pat.length) := by
      conv_lhs => rw [← List.take_append_drop pat.length (s.drop j)]
      rw [heq, List.drop_drop]
    refine ⟨s.take j, s.drop (j + pat.length), ?_, ?_⟩
    · calc s = s.take j ++ s.drop j := (List.take_append_drop j s).symm
        _ = s.take j ++ (pat ++ s.drop (j + pat.length)) := by rw [hdj]
        _ = s.take j ++ pat ++ s.drop (j + pat.length) := (List.append_assoc _ _ _).symm
    · simp only [List.length_take]
      omega
  · rintro ⟨a, b, rfl, rfl⟩
    simp [matchesAt, List.append_assoc, List.drop_left, List.take_left]

theorem matchesAt_true_bound (s pat : List Char) (j : Nat) (hp : pat ≠ [])
    (h : matchesAt s pat j = true) : j + pat.length ≤ s.length := by
  obtain ⟨a, b, rfl, rfl⟩ := (matchesAt_true_iff_split s pat j hp).mp h
  simp [List.length_append]

theorem includesSub_true_iff (s pat : List Char) (hp : pat ≠ []) :
    includesSub s pat = true ↔ ∃ j, matchesAt s pat j = true := by
  unfold includesSub
  constructor
  · intro h
    obtain ⟨j, hj⟩ := Option.isSome_iff_exists.mp h
    rw [findFromAux_eq_some_iff] at hj
    exact ⟨j, hj.2.2.1⟩
  · rintro ⟨j, hj⟩
    have hb := matchesAt_true_bound s pat j hp hj
    have hppos : 0 < pat.length := List.length_pos.mpr hp
    cases hfind : findFromAux s pat 0 (s.length + 1) with
    | some i => simp
    | none =>
      rw [findFromAux_eq_none_iff] at hfind
      exact absurd hj (by simp [hfind j (Nat.zero_le _) (by omega)])

theorem jsIndexOf_gt_three_iff (s pat : List Char) (hp : pat ≠ []) :
    ((3 : Int) < jsIndexOf s pat 3) ↔
      (matchesAt s pat 3 = false ∧ ∃ j, 4 ≤ j ∧ matchesAt s pat j = true) := by
  cases hfind : findFromAux s pat 3 (s.length + 1 - 3) with
  | some i =>
    have hval : jsIndexOf s pat 3 = (i : Int) := by
      unfold jsIndexOf
      rw [hfind]
    rw [hval]
    rw [findFromAux_eq_some_iff] at hfind
    obtain ⟨h1, h2, h3, h4⟩ := hfind
    constructor
    · intro hgt
      have hi : 3 < i := by exact_mod_cast hgt
      exact ⟨h4 3 (Nat.le_refl _) hi, ⟨i, by omega, h3⟩⟩
    · rintro ⟨hnot3, -⟩
      have hi : i ≠ 3 := by
        rintro rfl
        rw [h3] at hnot3
        simp at hnot3
      have hlt : 3 < i := Nat.lt_of_le_of_ne h1 (fun e => hi e.symm)
      exact_mod_cast hlt
  | none =>
    have hval : jsIndexOf s pat 3 = -1 := by
      unfold jsIndexOf
      rw [hfind]
    rw [hval]
    rw [findFromAux_eq_none_iff] at hfind
    constructor
    · intro hgt; norm_num at hgt
    · rintro ⟨-, j, hj4, hj⟩
      have hb := matchesAt_true_bound s pat j hp hj
      have hppos : 0 < pat.length := List.length_pos.mpr hp
      have hfj := hfind j (by omega) (by omega)
      rw [hfj] at hj
      simp at hj

theorem matchesAt_dot_zero_iff (s : List Char) :
    matchesAt s dotChars 0 = true ↔ ∃ t, s = '.' :: t := by
  rw [matchesAt_true_iff_split s dotChars 0 (by decide)]
  constructor
  · rintro ⟨a, b, rfl, ha⟩
    rw [List.length_eq_zero] at ha
    subst ha
    exact ⟨b, rfl⟩
  · rintro ⟨t, rfl⟩
    exact ⟨[], t, rfl, rfl⟩

/-!  C1: the security gate.  -/

/-- C1: the security gate blocks (returns a non-null explanation)
whenever a deep-scan result exists and marks the resource unsafe,
regardless of the numeric risk score; otherwise it blocks exactly when
a risk score exists and is at least 25; in all other cases it allows.
The gate is a pure function, so it performs no I/O. -/
theorem c1_security_gate_policy (skill : VibeResource) :
    checkSecurity skill ≠ none ↔
      ((∃ scan, skill.cisco_scan_result = some scan ∧ scan.is_safe = false) ∨
       ((∀ scan, skill.cisco_scan_result = some scan → scan.is_safe = true) ∧
        ∃ score, skill.security_score = some score ∧ (25 : Int) ≤ score)) := by
  have hscore : checkSecurityScore skill ≠ none ↔
      ∃ score, skill.security_score = some score ∧ (25 : Int) ≤ score := by
    cases hsc : skill.security_score with
    | none => simp [checkSecurityScore, hsc]
    | some score =>
      by_cases h25 : (25 : Int) ≤ score
      · simp [checkSecurityScore, hsc, h25]
      · simp [checkSecurityScore, hsc, h25]
  cases hscan : skill.cisco_scan_result with
  | none =>
    have hred : checkSecurity skill = checkSecurityScore skill := by
      simp [checkSecurity, hscan]
    rw [hred, hscore]
    constructor
    · intro h
      refine Or.inr ⟨fun scan hs => ?_, h⟩
      exact absurd hs (by simp)
    · rintro (⟨scan, hs, -⟩ | ⟨-, h⟩)
      · exact absurd hs (by simp)
      · exact h
  | some scan =>
    cases hsafe : scan.is_safe with
    | false =>
      have hred : checkSecurity skill = some (deepScanBlockMsg skill scan) := by
        simp [checkSecurity, hscan, hsafe]
      rw [hred]
      constructor
      · intro _; exact Or.inl ⟨scan, rfl, hsafe⟩
      · intro _; simp
    | true =>
      have hred : checkSecurity skill = checkSecurityScore skill := by
        simp [checkSecurity, hscan, hsafe]
      rw [hred, hscore]
      constructor
      · intro h
        refine Or.inr ⟨fun scan2 hs2 => ?_, h⟩
        rw [Option.some_inj] at hs2
        rw [← hs2]
        exact hsafe
      · rintro (⟨scan2, hs2, hunsafe⟩ | ⟨-, h⟩)
        · rw [Option.some_inj] at hs2
          rw [← hs2, hsafe] at hunsafe
          simp at hunsafe
        · exact h

/-!  C4: the content validation of the prober.  -/

/-- C4 counterexample: the body that starts with the delimiter, has a
second delimiter after position 3, and carries its `name:` field only
after the second delimiter (not between the two) is accepted by the
code, while the claim as stated would reject it. -/
theorem c4_counterexample :
    validSkillMd "---\n---\nname: x" = true ∧
      specValidSkillMd "---\n---\nname: x" = false := by
  constructor
  · decide
  · decide

/-- C4 (amended): the validation accepts a body iff it starts with the
`---` delimiter, the earliest delimiter occurrence at or after
position 3 lies strictly after position 3 (no occurrence at index 3,
one at index 4 or later), and `name:` occurs anywhere in the body (not
necessarily between the two delimiters). -/
theorem c4_validation_iff (content : String) :
    validSkillMd content = true ↔
      (matchesAt content.data dashChars 0 = true ∧
       matchesAt content.data dashChars 3 = false ∧
       (∃ j, 4 ≤ j ∧ matchesAt content.data dashChars j = true) ∧
       (∃ p, matchesAt content.data nameFieldChars p = true)) := by
  unfold validSkillMd
  simp only [Bool.and_eq_true, decide_eq_true_eq]
  rw [jsIndexOf_gt_three_iff _ _ (by decide), includesSub_true_iff _ _ (by decide)]
  tauto

/-!  C2: the sanitizer and the invalid-identifier short circuit.  -/

theorem filter_contains_dotdot (name : List Char)
    (h : includesSub name dotdotSlashChars = true) :
    includesSub (name.filter allowedChar) dotdotChars = true := by
  rw [includesSub_true_iff _ _ (by decide)] at h
  obtain ⟨j, hj⟩ := h
  obtain ⟨a, b, rfl, -⟩ := (matchesAt_true_iff_split _ _ _ (by decide)).mp hj
  rw [includesSub_true_iff _ _ (by decide)]
  refine ⟨(a.filter allowedChar).length, ?_⟩
  rw [matchesAt_true_iff_split _ _ _ (by decide)]
  refine ⟨a.filter allowedChar, b.filter allowedChar, ?_, rfl⟩
  have hdd : dotdotSlashChars.filter allowedChar = dotdotChars := by decide
  simp only [List.filter_append, hdd]

theorem filter_leading_dot (name : List Char)
    (h : matchesAt name dotChars 0 = true) :
    matchesAt (name.filter allowedChar) dotChars 0 = true := by
  obtain ⟨t, rfl⟩ := (matchesAt_dot_zero_iff name).mp h
  rw [matchesAt_dot_zero_iff]
  refine ⟨t.filter allowedChar, ?_⟩
  have hdot : allowedChar '.' = true := by decide
  simp [List.filter_cons, hdot]

theorem sanitizeSkillName_eq_none_iff (root name : String) :
    sanitizeSkillName root name = none ↔ specRejects root name := by
  have hkey : sanitizeSkillName root name = none ↔
      (((name.data.filter allowedChar).isEmpty
        || includesSub (name.data.filter allowedChar) dotdotChars
        || matchesAt (name.data.filter allowedChar) dotChars 0) = true
       ∨ matchesAt (root.data ++ '/' :: name.data.filter allowedChar)
           (root.data ++ ['/']) 0 = false) := by
    simp only [sanitizeSkillName]
    by_cases hc : ((name.data.filter allowedChar).isEmpty
        || includesSub (name.data.filter allowedChar) dotdotChars
        || matchesAt (name.data.filter allowedChar) dotChars 0) = true
    · rw [if_pos hc]
      simp [hc]
    · rw [if_neg hc]
      by_cases hd : matchesAt (root.data ++ '/' :: name.data.filter allowedChar)
          (root.data ++ ['/']) 0 = true
      · rw [if_pos hd]
        simp [hc, hd]
      · rw [if_neg hd]
        simp [hc, hd]
  rw [hkey]
  simp only [specRejects, Bool.or_eq_true]
  rw [includesSub_true_iff _ _ (show dotdotChars ≠ [] by decide), matchesAt_dot_zero_iff]
  constructor
  · rintro (((he | hdd) | hdot) | hres)
    · exact Or.inl (by simpa using he)
    · exact Or.inr (Or.inl hdd)
    · exact Or.inr (Or.inr (Or.inl hdot))
    · exact Or.inr (Or.inr (Or.inr hres))
  · rintro (he | hdd | hdot | hres)
    · exact Or.inl (Or.inl (Or.inl (by simp [he])))
    · exact Or.inl (Or.inl (Or.inr hdd))
    · exact Or.inl (Or.inr hdot)
    · exact Or.inr hres

/-- C2: the sanitizer rejects exactly when the stripped identifier is
empty, contains `..`, starts with `.`, or does not resolve to a strict
descendant of the installation root; a raw identifier containing `../`
or starting with `.` is always rejected; and whenever the sanitizer
rejects, install fails with the invalid-name error having performed
zero filesystem and zero network operations (empty event trace). -/
theorem c2_sanitizer_rejects_and_blocks (root name : String) :
    (sanitizeSkillName root name = none ↔ specRejects root name) ∧
    ((includesSub name.data dotdotSlashChars = true ∨ matchesAt name.data dotChars 0 = true) →
      sanitizeSkillName root name = none) ∧
    (∀ now oracle fs owner repo force, sanitizeSkillName root name = none →
      installSkillFromGitHub root now oracle fs owner repo name force =
        ({ success := false, skillName := name, error := some (invalidNameMsg name) }, [])) := by
  refine ⟨sanitizeSkillName_eq_none_iff root name, ?_, ?_⟩
  · rintro (hdd | hdot)
    · have h2 := filter_contains_dotdot name.data hdd
      simp only [sanitizeSkillName]
      rw [if_pos (by simp [h2])]
    · have h2 := filter_leading_dot name.data hdot
      simp only [sanitizeSkillName]
      rw [if_pos (by simp [h2])]
  · intro now oracle fs owner repo force hnone
    simp only [installSkillFromGitHub, hnone]

/-- C2 witness: at the concrete traversal identifier `../etc` the
installer returns the invalid-name failure with an empty trace. -/
theorem c2_witness :
    installSkillFromGitHub "/s" "t" oracleErrAll fsEmpty "o" "r" "../etc" false =
      ({ success := false, skillName := "../etc", error := some (invalidNameMsg "../etc") }, []) :=
  (c2_sanitizer_rejects_and_blocks "/s" "../etc").2.2 "t" oracleErrAll fsEmpty "o" "r" false
    (by decide)

/-!  C3: the prober's candidate list, order, and stop-at-first-hit.  -/

theorem probeAux_first_hit (oracle : String → FetchResult) :
    ∀ (l : List String) (i : Nat) (u body : String),
      l[i]? = some u → oracle u = FetchResult.resp true body → validSkillMd body = true →
      (∀ j v, j < i → l[j]? = some v → probeFails (oracle v) = true) →
      probeAux oracle l = (some (body, u), l.take (i + 1)) := by
  intro l
  induction l with
  | nil => intro i u body hget; simp at hget
  | cons hd tl ih =>
    intro i u body hget hres hval hprev
    cases i with
    | zero =>
      rw [List.getElem?_cons_zero, Option.some_inj] at hget
      subst hget
      simp only [probeAux, hres]
      rw [if_pos (by simp [hval])]
      simp
    | succ n =>
      have h0 : probeFails (oracle hd) = true := hprev 0 hd (Nat.succ_pos n) (by simp)
      have htl : probeAux oracle tl = (some (body, u), tl.take (n + 1)) := by
        apply ih n u body
        · simpa using hget
        · exact hres
        · exact hval
        · intro j v hj hjv
          exact hprev (j + 1) v (by omega) (by simpa using hjv)
      cases hor : oracle hd with
      | err =>
        simp [probeAux, hor, htl, List.take_succ_cons]
      | resp ok body2 =>
        have hfail : (ok && validSkillMd body2) = false := by
          rw [hor] at h0
          cases hb : (ok && validSkillMd body2) with
          | false => rfl
          | true =>
            simp only [probeFails, hb] at h0
            exact absurd h0 (by decide)
        simp only [probeAux, hor]
        rw [if_neg (by simp [hfail])]
        simp [htl, List.take_succ_cons]

theorem probeAux_exhaust (oracle : String → FetchResult) :
    ∀ (l : List String), (∀ u ∈ l, probeFails (oracle u) = true) →
      probeAux oracle l = (none, l) := by
  intro l
  induction l with
  | nil => intro _; rfl
  | cons hd tl ih =>
    intro h
    have h0 : probeFails (oracle hd) = true := h hd (by simp)
    have htl := ih (fun u hu => h u (by simp [hu]))
    cases hor : oracle hd with
    | err => simp [probeAux, hor, htl]
    | resp ok body =>
      have hfail : (ok && validSkillMd body) = false := by
        rw [hor] at h0
        cases hb : (ok && validSkillMd body) with
        | false => rfl
        | true =>
          simp only [probeFails, hb] at h0
          exact absurd h0 (by decide)
      simp only [probeAux, hor]
      rw [if_neg (by simp [hfail])]
      simp [htl]

/-- C3: the prober builds exactly the six spec-ordered candidate URLs
and fetches them strictly in order; the first candidate that is both
HTTP-successful and passes validation is returned with its content and
URL, and no later candidate is requested (the trace of fetched URLs is
the prefix ending at the hit). -/
theorem c3_probe_order_first_hit (oracle : String → FetchResult) (owner repo skillName : String) :
    getSkillMdUrls owner repo skillName = specCandidateUrls owner repo skillName ∧
    (∀ i u body, (getSkillMdUrls owner repo skillName)[i]? = some u →
      oracle u = FetchResult.resp true body → validSkillMd body = true →
      (∀ j v, j < i → (getSkillMdUrls owner repo skillName)[j]? = some v →
        probeFails (oracle v) = true) →
      downloadSkillMd oracle owner repo skillName =
        (some (body, u), (getSkillMdUrls owner repo skillName).take (i + 1))) := by
  constructor
  · rfl
  · intro i u body hget hres hval hprev
    exact probeAux_first_hit oracle (getSkillMdUrls owner repo skillName) i u body hget hres hval hprev

/-- C3 witness: with an oracle on which only the fourth candidate for
`o/r` and skill `sk` answers validly, the prober returns the fourth
candidate's body and URL and its fetch trace stops there. -/
theorem c3_witness :
    downloadSkillMd oracleFourth "o" "r" "sk" =
      (some (sampleBody, "https://raw.githubusercontent.com/o/r/master/SKILL.md"),
        (getSkillMdUrls "o" "r" "sk").take 4) := by
  apply (c3_probe_order_first_hit oracleFourth "o" "r" "sk").2 3
  · decide
  · decide
  · decide
  · intro j v hj hv
    have hj3 : j = 0 ∨ j = 1 ∨ j = 2 := by omega
    rcases hj3 with rfl | rfl | rfl
    · rw [show (getSkillMdUrls "o" "r" "sk")[0]? =
          some "https://raw.githubusercontent.com/o/r/main/skills/sk/SKILL.md" by decide] at hv
      rw [Option.some_inj] at hv
      rw [← hv]
      decide
    · rw [show (getSkillMdUrls "o" "r" "sk")[1]? =
          some "https://raw.githubusercontent.com/o/r/master/skills/sk/SKILL.md" by decide] at hv
      rw [Option.some_inj] at hv
      rw [← hv]
      decide
    · rw [show (getSkillMdUrls "o" "r" "sk")[2]? =
          some "https://raw.githubusercontent.com/o/r/main/SKILL.md" by decide] at hv
      rw [Option.some_inj] at hv
      rw [← hv]
      decide

/-!  Lemmas about the filesystem model and event replay.  -/

theorem applyEvents_append (fs : FS) (a b : List Ev) :
    applyEvents fs (a ++ b) = applyEvents (applyEvents fs a) b :=
  List.foldl_append applyEv fs a b

theorem applyEvents_readonly (tr : List Ev) (h : ∀ e ∈ tr, readOnlyEv e = true) :
    ∀ fs, applyEvents fs tr = fs := by
  induction tr with
  | nil => intro fs; rfl
  | cons hd tl ih =>
    intro fs
    have hhd := h hd (by simp)
    have htl := ih (fun e he => h e (by simp [he]))
    cases hd with
    | access p => exact htl fs
    | fetch u => exact htl fs
    | mkdir p => simp [readOnlyEv] at hhd
    | write p c => simp [readOnlyEv] at hhd
    | rm p => simp [readOnlyEv] at hhd

theorem accessFile_mkdirRec (fs : FS) (p q : String) :
    accessFile (mkdirRec fs p) q = accessFile fs q := rfl

theorem accessFile_writeFile_self (fs : FS) (p c : String) :
    accessFile (writeFile fs p c) p = true := by
  simp [accessFile, writeFile]

theorem any_key_filter_general (l : List (String × String)) (f : String → Bool) (q : String) :
    (l.filter (fun e => f e.1)).any (fun e => e.1 == q) =
      (l.any (fun e => e.1 == q) && f q) := by
  induction l with
  | nil => simp
  | cons hd tl ih =>
    simp only [List.filter_cons]
    cases hf : f hd.1 with
    | true =>
      cases hq2 : (hd.1 == q) with
      | true =>
        have heq : hd.1 = q := by simpa using hq2
        subst heq
        simp [List.any_cons, hf, ih]
      | false =>
        simp [List.any_cons, hq2, ih]
    | false =>
      cases hq2 : (hd.1 == q) with
      | true =>
        have heq : hd.1 = q := by simpa using hq2
        subst heq
        simp [List.any_cons, hq2, ih, hf]
      | false =>
        simp [List.any_cons, hq2, ih]

theorem accessFile_writeFile_ne (fs : FS) (p c q : String) (h : q ≠ p) :
    accessFile (writeFile fs p c) q = accessFile fs q := by
  have hpq : (p == q) = false := beq_eq_false_iff_ne.mpr (Ne.symm h)
  have hkey := any_key_filter_general fs.files (fun r => !(r == p)) q
  have hq : (!(q == p)) = true := by
    simp [beq_eq_false_iff_ne.mpr h]
  simp only [accessFile, writeFile, List.any_cons, hpq, Bool.false_or]
  rw [hkey, hq, Bool.and_true]

theorem accessFile_rmTree (fs : FS) (d q : String) :
    accessFile (rmTree fs d) q =
      (accessFile fs q && !(q == d || matchesAt q.data (d.data ++ ['/']) 0)) := by
  have h := any_key_filter_general fs.files
      (fun p => !(p == d || matchesAt p.data (d.data ++ ['/']) 0)) q
  simp only [accessFile, rmTree]
  exact h

theorem accessFile_applyEvents_nonwrite (tr : List Ev) (h : ∀ e ∈ tr, nonWriteEv e = true) :
    ∀ fs q, accessFile (applyEvents fs tr) q = accessFile fs q := by
  induction tr with
  | nil => intro fs q; rfl
  | cons hd tl ih =>
    intro fs q
    have hhd := h hd (by simp)
    have htl := ih (fun e he => h e (by simp [he]))
    cases hd with
    | access p => exact htl fs q
    | fetch u => exact htl fs q
    | mkdir p =>
      have : applyEvents fs (Ev.mkdir p :: tl) = applyEvents (mkdirRec fs p) tl := rfl
      rw [this, htl (mkdirRec fs p) q, accessFile_mkdirRec]
    | write p c => simp [nonWriteEv] at hhd
    | rm p => simp [nonWriteEv] at hhd

theorem metaFile_ne_skillFile (d : String) :
    pathJoin d metaFileName ≠ pathJoin d skillMdName := by
  intro h
  have hlen := congrArg String.length h
  simp only [pathJoin, String.length_append] at hlen
  rw [show metaFileName.length = 14 from rfl, show skillMdName.length = 8 from rfl] at hlen
  omega

/-!  Unfolding lemmas for the installer's branches.  -/

theorem install_already (root now : String) (oracle : String → FetchResult) (fs : FS)
    (owner repo skillName safe : String) (force : Bool)
    (hsan : sanitizeSkillName root skillName = some safe)
    (hacc : (accessFile fs (pathJoin (pathJoin root safe) skillMdName) && !force) = true) :
    installSkillFromGitHub root now oracle fs owner repo skillName force =
      ({ success := true, skillName := skillName, installPath := some (pathJoin root safe),
         alreadyInstalled := some true },
        [Ev.access (pathJoin (pathJoin root safe) skillMdName)]) := by
  simp [installSkillFromGitHub, hsan, hacc]

theorem install_notfound (root now : String) (oracle : String → FetchResult) (fs : FS)
    (owner repo skillName safe : String) (force : Bool) (attempted : List String)
    (hsan : sanitizeSkillName root skillName = some safe)
    (hacc : (accessFile fs (pathJoin (pathJoin root safe) skillMdName) && !force) = false)
    (hdl : downloadSkillMd oracle owner repo skillName = (none, attempted)) :
    installSkillFromGitHub root now oracle fs owner repo skillName force =
      ({ success := false, skillName := skillName,
         error := some (notFoundMsg owner repo skillName) },
        Ev.access (pathJoin (pathJoin root safe) skillMdName) :: attempted.map Ev.fetch) := by
  simp [installSkillFromGitHub, hsan, hacc, hdl]

theorem install_fresh_success (root now : String) (oracle : String → FetchResult) (fs : FS)
    (owner repo skillName safe : String) (force : Bool)
    (content url : String) (attempted : List String)
    (hsan : sanitizeSkillName root skillName = some safe)
    (hacc : (accessFile fs (pathJoin (pathJoin root safe) skillMdName) && !force) = false)
    (hdl : downloadSkillMd oracle owner repo skillName = (some (content, url), attempted)) :
    installSkillFromGitHub root now oracle fs owner repo skillName force =
      ({ success := true, skillName := skillName,
         installPath := some (pathJoin root safe), sourceUrl := some url },
        Ev.access (pathJoin (pathJoin root safe) skillMdName) :: attempted.map Ev.fetch
          ++ [Ev.mkdir (pathJoin root safe),
              Ev.write (pathJoin (pathJoin root safe) skillMdName) content,
              Ev.write (pathJoin (pathJoin root safe) metaFileName)
                (metaJson owner repo url skillName now)]) := by
  simp [installSkillFromGitHub, hsan, hacc, hdl]

/-!  C5: the already-installed check.  -/

/-- C5 counterexample: a target directory holding an Install Record but
no content file is not treated as already installed: with a valid
identifier and no force, install does not return alreadyInstalled and
issues network fetches, refuting the claim that the Install Record
alone short-circuits the install. -/
theorem c5_counterexample :
    sanitizeSkillName "/s" "sk" = some "sk" ∧
    accessFile fsRecordOnly (pathJoin (pathJoin "/s" "sk") metaFileName) = true ∧
    (installSkillFromGitHub "/s" "t" oracleErrAll fsRecordOnly "o" "r" "sk" false).1.alreadyInstalled
      ≠ some true ∧
    (installSkillFromGitHub "/s" "t" oracleErrAll fsRecordOnly "o" "r" "sk" false).2.any isFetchEv
      = true := by
  refine ⟨by decide, by decide, by decide, by decide⟩

/-- C5 (amended): the already-installed check tests the presence of the
skill content file SKILL.md, not the Install Record.  For every valid
identifier whose target directory already contains the content file,
install without force returns success with alreadyInstalled = true and
its whole trace is the single access probe (no fetch, no write); and a
second install immediately after a successful fresh install returns
alreadyInstalled = true the same way, without re-fetching or
rewriting. -/
theorem c5_already_check_is_content_file (root now now2 : String)
    (oracle oracle2 : String → FetchResult) (fs : FS)
    (owner repo owner2 repo2 skillName : String) (force : Bool) :
    (∀ safe, sanitizeSkillName root skillName = some safe →
      accessFile fs (pathJoin (pathJoin root safe) skillMdName) = true →
      installSkillFromGitHub root now2 oracle2 fs owner2 repo2 skillName false =
        ({ success := true, skillName := skillName, installPath := some (pathJoin root safe),
           alreadyInstalled := some true },
          [Ev.access (pathJoin (pathJoin root safe) skillMdName)])) ∧
    ((installSkillFromGitHub root now oracle fs owner repo skillName force).1.success = true →
      (installSkillFromGitHub root now oracle fs owner repo skillName force).1.alreadyInstalled = none →
      ∃ safe, sanitizeSkillName root skillName = some safe ∧
        installSkillFromGitHub root now2 oracle2
            (applyEvents fs (installSkillFromGitHub root now oracle fs owner repo skillName force).2)
            owner2 repo2 skillName false =
          ({ success := true, skillName := skillName, installPath := some (pathJoin root safe),
             alreadyInstalled := some true },
            [Ev.access (pathJoin (pathJoin root safe) skillMdName)])) := by
  constructor
  · intro safe hsan hacc
    exact install_already root now2 oracle2 fs owner2 repo2 skillName safe false hsan (by simp [hacc])
  · intro hsucc hfresh
    cases hsan : sanitizeSkillName root skillName with
    | none =>
      rw [show (installSkillFromGitHub root now oracle fs owner repo skillName force).1.success = false
          from by simp [installSkillFromGitHub, hsan]] at hsucc
      exact absurd hsucc (by simp)
    | some safe =>
      refine ⟨safe, rfl, ?_⟩
      by_cases hacc : (accessFile fs (pathJoin (pathJoin root safe) skillMdName) && !force) = true
      · have halready := install_already root now oracle fs owner repo skillName safe force hsan hacc
        rw [show (installSkillFromGitHub root now oracle fs owner repo skillName force).1.alreadyInstalled
            = some true from by rw [halready]] at hfresh
        exact absurd hfresh (by simp)
      · have hacc2 : (accessFile fs (pathJoin (pathJoin root safe) skillMdName) && !force) = false := by
          cases hb : (accessFile fs (pathJoin (pathJoin root safe) skillMdName) && !force) with
          | false => rfl
          | true => exact absurd hb hacc
        cases hdl : downloadSkillMd oracle owner repo skillName with
        | mk res att =>
          cases res with
          | none =>
            have hnf := install_notfound root now oracle fs owner repo skillName safe force att hsan hacc2 hdl
            rw [show (installSkillFromGitHub root now oracle fs owner repo skillName force).1.success = false
                from by rw [hnf]] at hsucc
            exact absurd hsucc (by simp)
          | some cu =>
            obtain ⟨content, url⟩ := cu
            have hinst := install_fresh_success root now oracle fs owner repo skillName safe force
              content url att hsan hacc2 hdl
            have h2 : applyEvents fs
                (Ev.access (pathJoin (pathJoin root safe) skillMdName) :: att.map Ev.fetch) = fs := by
              apply applyEvents_readonly
              intro e he
              rcases List.mem_cons.mp he with rfl | hmem
              · rfl
              · obtain ⟨u, -, rfl⟩ := List.mem_map.mp hmem
                rfl
            have hfs : accessFile
                (applyEvents fs (installSkillFromGitHub root now oracle fs owner repo skillName force).2)
                (pathJoin (pathJoin root safe) skillMdName) = true := by
              rw [show (installSkillFromGitHub root now oracle fs owner repo skillName force).2 =
                  (Ev.access (pathJoin (pathJoin root safe) skillMdName) :: att.map Ev.fetch)
                    ++ [Ev.mkdir (pathJoin root safe),
                        Ev.write (pathJoin (pathJoin root safe) skillMdName) content,
                        Ev.write (pathJoin (pathJoin root safe) metaFileName)
                          (metaJson owner repo url skillName now)] from by rw [hinst]]
              rw [applyEvents_append, h2]
              show accessFile
                (writeFile (writeFile (mkdirRec fs (pathJoin root safe))
                    (pathJoin (pathJoin root safe) skillMdName) content)
                  (pathJoin (pathJoin root safe) metaFileName)
                  (metaJson owner repo url skillName now))
                (pathJoin (pathJoin root safe) skillMdName) = true
              rw [accessFile_writeFile_ne _ _ _ _
                (Ne.symm (metaFile_ne_skillFile (pathJoin root safe)))]
              exact accessFile_writeFile_self _ _ _
            exact install_already root now2 oracle2 _ owner2 repo2 skillName safe false hsan
              (by simp [hfs])

/-- C5 witness: a filesystem whose alpha directory holds the content
file is reported alreadyInstalled with a read-only trace. -/
theorem c5_witness :
    installSkillFromGitHub "/s" "t" oracleErrAll fsTwoTracked "o" "r" "alpha" false =
      ({ success := true, skillName := "alpha", installPath := some (pathJoin "/s" "alpha"),
         alreadyInstalled := some true },
        [Ev.access (pathJoin (pathJoin "/s" "alpha") skillMdName)]) :=
  (c5_already_check_is_content_file "/s" "t" "t" oracleErrAll oracleErrAll fsTwoTracked
      "o" "r" "o" "r" "alpha" false).1 "alpha" (by decide) (by decide)

/-!  C6: exhausted probe leaves no partial state.  -/

/-- C6: when every candidate fails (transport error, bad status, or
invalid body), install returns the descriptive not-found failure, its
trace is the access probe followed by the six fetches only, and the
filesystem is unchanged: no directory is created and no file is
written. -/
theorem c6_probe_exhaustion_no_partial_state (root now : String) (oracle : String → FetchResult)
    (fs : FS) (owner repo skillName safe : String) (force : Bool)
    (hsan : sanitizeSkillName root skillName = some safe)
    (hacc : (accessFile fs (pathJoin (pathJoin root safe) skillMdName) && !force) = false)
    (hfail : ∀ u ∈ getSkillMdUrls owner repo skillName, probeFails (oracle u) = true) :
    installSkillFromGitHub root now oracle fs owner repo skillName force =
      ({ success := false, skillName := skillName,
         error := some (notFoundMsg owner repo skillName) },
        Ev.access (pathJoin (pathJoin root safe) skillMdName)
          :: (getSkillMdUrls owner repo skillName).map Ev.fetch) ∧
    applyEvents fs (installSkillFromGitHub root now oracle fs owner repo skillName force).2 = fs := by
  have hdl : downloadSkillMd oracle owner repo skillName =
      (none, getSkillMdUrls owner repo skillName) :=
    probeAux_exhaust oracle _ hfail
  have hnf := install_notfound root now oracle fs owner repo skillName safe force _ hsan hacc hdl
  refine ⟨hnf, ?_⟩
  rw [show (installSkillFromGitHub root now oracle fs owner repo skillName force).2 =
      Ev.access (pathJoin (pathJoin root safe) skillMdName)
        :: (getSkillMdUrls owner repo skillName).map Ev.fetch from by rw [hnf]]
  apply applyEvents_readonly
  intro e he
  rcases List.mem_cons.mp he with rfl | hmem
  · rfl
  · obtain ⟨u, -, rfl⟩ := List.mem_map.mp hmem
    rfl

/-- C6 witness: against an all-failing oracle on the empty filesystem,
install fails with the not-found error and changes nothing. -/
theorem c6_witness :
    installSkillFromGitHub "/s" "t" oracleErrAll fsEmpty "o" "r" "sk" false =
      ({ success := false, skillName := "sk", error := some (notFoundMsg "o" "r" "sk") },
        Ev.access (pathJoin (pathJoin "/s" "sk") skillMdName)
          :: (getSkillMdUrls "o" "r" "sk").map Ev.fetch) ∧
    applyEvents fsEmpty
      (installSkillFromGitHub "/s" "t" oracleErrAll fsEmpty "o" "r" "sk" false).2 = fsEmpty :=
  c6_probe_exhaustion_no_partial_state "/s" "t" oracleErrAll fsEmpty "o" "r" "sk" "sk" false
    (by decide) (by decide) (fun u hu => rfl)

/-!  C7: the content file is written before the Install Record.  -/

theorem invariant_prefix (fs : FS) (A : List Ev) (sf mp content meta : String)
    (hA : ∀ e ∈ A, nonWriteEv e = true) (hne : mp ≠ sf)
    (hinv : accessFile fs mp = true → accessFile fs sf = true) (k : Nat) :
    accessFile (applyEvents fs ((A ++ [Ev.write sf content, Ev.write mp meta]).take k)) mp = true →
    accessFile (applyEvents fs ((A ++ [Ev.write sf content, Ev.write mp meta]).take k)) sf = true := by
  rw [List.take_append_eq_append_take]
  by_cases hk : k ≤ A.length
  · have h2 : k - A.length = 0 := by omega
    rw [h2, List.take_zero, List.append_nil]
    have hpre : ∀ e ∈ A.take k, nonWriteEv e = true :=
      fun e he => hA e (List.mem_of_mem_take he)
    rw [accessFile_applyEvents_nonwrite (A.take k) hpre fs mp,
        accessFile_applyEvents_nonwrite (A.take k) hpre fs sf]
    exact hinv
  · have hAfull : A.take k = A := List.take_of_length_le (by omega)
    rw [hAfull]
    rcases Nat.lt_or_ge (k - A.length) 2 with h2 | h2
    · have h1 : k - A.length = 1 := by omega
      rw [h1, show [Ev.write sf content, Ev.write mp meta].take 1 = [Ev.write sf content] from rfl,
        applyEvents_append]
      intro _
      exact accessFile_writeFile_self (applyEvents fs A) sf content
    · have h1 : [Ev.write sf content, Ev.write mp meta].take (k - A.length) =
          [Ev.write sf content, Ev.write mp meta] :=
        List.take_of_length_le h2
      rw [h1, applyEvents_append]
      intro _
      show accessFile (writeFile (writeFile (applyEvents fs A) sf content) mp meta) sf = true
      rw [accessFile_writeFile_ne _ mp meta sf (Ne.symm hne)]
      exact accessFile_writeFile_self _ sf content

/-- C7: in every successful fresh install the trace ends with the
content write immediately followed by the Install Record write, and no
other write precedes them; consequently, starting from a filesystem in
which the record implies the content, after every prefix of the trace
the target directory never holds the record without the content
file. -/
theorem c7_content_write_precedes_record (root now : String) (oracle : String → FetchResult)
    (fs : FS) (owner repo skillName safe : String) (force : Bool)
    (hsan : sanitizeSkillName root skillName = some safe)
    (hsucc : (installSkillFromGitHub root now oracle fs owner repo skillName force).1.success = true)
    (hfresh : (installSkillFromGitHub root now oracle fs owner repo skillName force).1.alreadyInstalled
      = none)
    (hinv : accessFile fs (pathJoin (pathJoin root safe) metaFileName) = true →
      accessFile fs (pathJoin (pathJoin root safe) skillMdName) = true) :
    (∃ pre content meta,
      (installSkillFromGitHub root now oracle fs owner repo skillName force).2 =
        pre ++ [Ev.write (pathJoin (pathJoin root safe) skillMdName) content,
                Ev.write (pathJoin (pathJoin root safe) metaFileName) meta] ∧
      ∀ p c, Ev.write p c ∉ pre) ∧
    (∀ k,
      accessFile (applyEvents fs
          ((installSkillFromGitHub root now oracle fs owner repo skillName force).2.take k))
          (pathJoin (pathJoin root safe) metaFileName) = true →
      accessFile (applyEvents fs
          ((installSkillFromGitHub root now oracle fs owner repo skillName force).2.take k))
          (pathJoin (pathJoin root safe) skillMdName) = true) := by
  by_cases hacc : (accessFile fs (pathJoin (pathJoin root safe) skillMdName) && !force) = true
  · have halready := install_already root now oracle fs owner repo skillName safe force hsan hacc
    rw [show (installSkillFromGitHub root now oracle fs owner repo skillName force).1.alreadyInstalled
        = some true from by rw [halready]] at hfresh
    exact absurd hfresh (by simp)
  · have hacc2 : (accessFile fs (pathJoin (pathJoin root safe) skillMdName) && !force) = false := by
      cases hb : (accessFile fs (pathJoin (pathJoin root safe) skillMdName) && !force) with
      | false => rfl
      | true => exact absurd hb hacc
    cases hdl : downloadSkillMd oracle owner repo skillName with
    | mk res att =>
      cases res with
      | none =>
        have hnf := install_notfound root now oracle fs owner repo skillName safe force att hsan hacc2 hdl
        rw [show (installSkillFromGitHub root now oracle fs owner repo skillName force).1.success = false
            from by rw [hnf]] at hsucc
        exact absurd hsucc (by simp)
      | some cu =>
        obtain ⟨content, url⟩ := cu
        have hinst := install_fresh_success root now oracle fs owner repo skillName safe force
          content url att hsan hacc2 hdl
        have htr : (installSkillFromGitHub root now oracle fs owner repo skillName force).2 =
            (Ev.access (pathJoin (pathJoin root safe) skillMdName) :: att.map Ev.fetch
              ++ [Ev.mkdir (pathJoin root safe)]) ++
            [Ev.write (pathJoin (pathJoin root safe) skillMdName) content,
             Ev.write (pathJoin (pathJoin root safe) metaFileName)
               (metaJson owner repo url skillName now)] := by
          simp [hinst, List.append_assoc]
        have hA : ∀ e ∈ Ev.access (pathJoin (pathJoin root safe) skillMdName) :: att.map Ev.fetch
            ++ [Ev.mkdir (pathJoin root safe)], nonWriteEv e = true := by
          intro e he
          rcases List.mem_append.mp he with hmem1 | hmem2
          · rcases List.mem_cons.mp hmem1 with rfl | hmem3
            · rfl
            · obtain ⟨u, -, rfl⟩ := List.mem_map.mp hmem3
              rfl
          · rcases List.mem_cons.mp hmem2 with rfl | hmem4
            · rfl
            · exact absurd hmem4 (by simp)
        constructor
        · refine ⟨Ev.access (pathJoin (pathJoin root safe) skillMdName) :: att.map Ev.fetch
              ++ [Ev.mkdir (pathJoin root safe)], content,
            metaJson owner repo url skillName now, htr, ?_⟩
          intro p c hmem
          have := hA (Ev.write p c) hmem
          simp [nonWriteEv] at this
        · intro k
          rw [htr]
          exact invariant_prefix fs _ _ _ content (metaJson owner repo url skillName now)
            hA (metaFile_ne_skillFile (pathJoin root safe)) hinv k

/-- C7 witness: a concrete fresh install against an always-valid oracle
satisfies the write-ordering and the record-implies-content
invariant. -/
theorem c7_witness :
    (∃ pre content meta,
      (installSkillFromGitHub "/s" "t" oracleHit fsEmpty "o" "r" "sk" false).2 =
        pre ++ [Ev.write (pathJoin (pathJoin "/s" "sk") skillMdName) content,
                Ev.write (pathJoin (pathJoin "/s" "sk") metaFileName) meta] ∧
      ∀ p c, Ev.write p c ∉ pre) ∧
    (∀ k,
      accessFile (applyEvents fsEmpty
          ((installSkillFromGitHub "/s" "t" oracleHit fsEmpty "o" "r" "sk" false).2.take k))
          (pathJoin (pathJoin "/s" "sk") metaFileName) = true →
      accessFile (applyEvents fsEmpty
          ((installSkillFromGitHub "/s" "t" oracleHit fsEmpty "o" "r" "sk" false).2.take k))
          (pathJoin (pathJoin "/s" "sk") skillMdName) = true) :=
  c7_content_write_precedes_record "/s" "t" oracleHit fsEmpty "o" "r" "sk" "sk" false
    (by decide) (by decide) (by decide) (by decide)

/-!  C8: uninstall is gated on the Install Record.  -/

/-- C8: uninstall returns true exactly when the identifier sanitizes
and the sanitized directory's Install Record exists; in that case the
whole skill directory is removed recursively (every file at or below
it disappears, everything else is untouched); an invalid identifier, a
missing directory or a missing record yields false and leaves the
filesystem unchanged. -/
theorem c8_uninstall_record_gated (root : String) (fs : FS) (skillName : String) :
    ((uninstallSkill root fs skillName).1 = true ↔
      ∃ safe, sanitizeSkillName root skillName = some safe ∧
        accessFile fs (pathJoin (pathJoin root safe) metaFileName) = true) ∧
    (sanitizeSkillName root skillName = none →
      uninstallSkill root fs skillName = (false, []) ∧
      applyEvents fs (uninstallSkill root fs skillName).2 = fs) ∧
    (∀ safe, sanitizeSkillName root skillName = some safe →
      accessFile fs (pathJoin (pathJoin root safe) metaFileName) = false →
      uninstallSkill root fs skillName =
        (false, [Ev.access (pathJoin (pathJoin root safe) metaFileName)]) ∧
      applyEvents fs (uninstallSkill root fs skillName).2 = fs) ∧
    (∀ safe, sanitizeSkillName root skillName = some safe →
      accessFile fs (pathJoin (pathJoin root safe) metaFileName) = true →
      uninstallSkill root fs skillName =
        (true, [Ev.access (pathJoin (pathJoin root safe) metaFileName),
                Ev.rm (pathJoin root safe)]) ∧
      ∀ q, accessFile (applyEvents fs (uninstallSkill root fs skillName).2) q =
        (accessFile fs q &&
          !(q == pathJoin root safe ||
            matchesAt q.data ((pathJoin root safe).data ++ ['/']) 0))) := by
  refine ⟨?_, ?_, ?_, ?_⟩
  · constructor
    · intro htrue
      cases hsan : sanitizeSkillName root skillName with
      | none =>
        rw [show (uninstallSkill root fs skillName).1 = false from by
          simp [uninstallSkill, hsan]] at htrue
        exact absurd htrue (by simp)
      | some safe =>
        by_cases hacc : accessFile fs (pathJoin (pathJoin root safe) metaFileName) = true
        · exact ⟨safe, rfl, hacc⟩
        · have hacc2 : accessFile fs (pathJoin (pathJoin root safe) metaFileName) = false := by
            cases hb : accessFile fs (pathJoin (pathJoin root safe) metaFileName) with
            | false => rfl
            | true => exact absurd hb hacc
          rw [show (uninstallSkill root fs skillName).1 = false from by
            simp [uninstallSkill, hsan, hacc2]] at htrue
          exact absurd htrue (by simp)
    · rintro ⟨safe, hsan, hacc⟩
      simp [uninstallSkill, hsan, hacc]
  · intro hsan
    have hu : uninstallSkill root fs skillName = (false, []) := by
      simp [uninstallSkill, hsan]
    refine ⟨hu, ?_⟩
    rw [show (uninstallSkill root fs skillName).2 = ([] : List Ev) from by rw [hu]]
    rfl
  · intro safe hsan hacc
    have hu : uninstallSkill root fs skillName =
        (false, [Ev.access (pathJoin (pathJoin root safe) metaFileName)]) := by
      simp [uninstallSkill, hsan, hacc]
    refine ⟨hu, ?_⟩
    rw [show (uninstallSkill root fs skillName).2 =
        [Ev.access (pathJoin (pathJoin root safe) metaFileName)] from by rw [hu]]
    rfl
  · intro safe hsan hacc
    have hu : uninstallSkill root fs skillName =
        (true, [Ev.access (pathJoin (pathJoin root safe) metaFileName),
                Ev.rm (pathJoin root safe)]) := by
      simp [uninstallSkill, hsan, hacc]
    refine ⟨hu, ?_⟩
    intro q
    rw [show (uninstallSkill root fs skillName).2 =
        [Ev.access (pathJoin (pathJoin root safe) metaFileName),
         Ev.rm (pathJoin root safe)] from by rw [hu]]
    exact accessFile_rmTree fs (pathJoin root safe) q

/-- C8 witness: uninstalling the tracked alpha skill removes exactly
the files under its directory and returns true. -/
theorem c8_witness :
    uninstallSkill "/s" fsTwoTracked "alpha" =
      (true, [Ev.access (pathJoin (pathJoin "/s" "alpha") metaFileName),
              Ev.rm (pathJoin "/s" "alpha")]) ∧
    ∀ q, accessFile (applyEvents fsTwoTracked (uninstallSkill "/s" fsTwoTracked "alpha").2) q =
      (accessFile fsTwoTracked q &&
        !(q == pathJoin "/s" "alpha" ||
          matchesAt q.data ((pathJoin "/s" "alpha").data ++ ['/']) 0)) :=
  (c8_uninstall_record_gated "/s" fsTwoTracked "alpha").2.2.2 "alpha" (by decide) (by decide)

/-!  C9: listing returns exactly the tracked directories.  -/

/-- C9: a name is listed iff the installation root exists, the name is
a directory entry directly under it, and that entry's Install Record
is accessible; recordless directories are silently skipped, so the
concrete filesystem with two tracked skills and one recordless
directory lists exactly the two tracked identifiers. -/
theorem c9_list_tracked_only (root : String) (fs : FS) :
    (∀ n, n ∈ listInstalledSkills root fs ↔
      (fs.dirs.contains root = true ∧ (n, true) ∈ readdirEntries fs root ∧
        accessFile fs (pathJoin (pathJoin root n) metaFileName) = true)) ∧
    listInstalledSkills "/s" fsTwoTracked = ["alpha", "beta"] := by
  constructor
  · intro n
    by_cases hr : fs.dirs.contains root = true
    · rw [show listInstalledSkills root fs =
          (readdirEntries fs root).filterMap (fun e =>
            if e.2 && accessFile fs (pathJoin (pathJoin root e.1) metaFileName) then some e.1
            else none) from by
        unfold listInstalledSkills
        rw [if_pos hr]]
      rw [List.mem_filterMap]
      constructor
      · rintro ⟨e, he, hsome⟩
        obtain ⟨n1, b⟩ := e
        dsimp only at hsome
        by_cases hcond : (b && accessFile fs (pathJoin (pathJoin root n1) metaFileName)) = true
        · rw [if_pos hcond, Option.some_inj] at hsome
          subst hsome
          obtain ⟨hb, hacc⟩ : b = true ∧
              accessFile fs (pathJoin (pathJoin root n1) metaFileName) = true := by
            simpa using hcond
          subst hb
          exact ⟨hr, he, hacc⟩
        · rw [if_neg hcond] at hsome
          exact absurd hsome (by simp)
      · rintro ⟨-, he, hacc⟩
        refine ⟨(n, true), he, ?_⟩
        rw [if_pos (by simp [hacc])]
    · rw [show listInstalledSkills root fs = [] from by
        unfold listInstalledSkills
        rw [if_neg hr]]
      constructor
      · intro h
        exact absurd h (List.not_mem_nil n)
      · rintro ⟨hc, -, -⟩
        exact absurd hc hr
  · decide

/-!  C10: result fields carry the raw and sanitized identifiers.  -/

/-- C10: on every outcome the returned result carries the raw input
identifier verbatim in skillName, and whenever installPath is present
it is the installation root joined with the sanitized form of the
identifier. -/
theorem c10_result_identifier_fields (root now : String) (oracle : String → FetchResult)
    (fs : FS) (owner repo skillName : String) (force : Bool) :
    (installSkillFromGitHub root now oracle fs owner repo skillName force).1.skillName = skillName ∧
    (∀ p, (installSkillFromGitHub root now oracle fs owner repo skillName force).1.installPath
        = some p →
      ∃ safe, sanitizeSkillName root skillName = some safe ∧ p = pathJoin root safe) := by
  cases hsan : sanitizeSkillName root skillName with
  | none =>
    have hrw : installSkillFromGitHub root now oracle fs owner repo skillName force =
        ({ success := false, skillName := skillName, error := some (invalidNameMsg skillName) },
          []) := by
      simp [installSkillFromGitHub, hsan]
    rw [hrw]
    refine ⟨rfl, ?_⟩
    intro p hp
    exact absurd hp (by simp)
  | some safe =>
    by_cases hacc : (accessFile fs (pathJoin (pathJoin root safe) skillMdName) && !force) = true
    · rw [install_already root now oracle fs owner repo skillName safe force hsan hacc]
      exact ⟨rfl, fun p hp => ⟨safe, rfl, (Option.some_inj.mp hp).symm⟩⟩
    · have hacc2 : (accessFile fs (pathJoin (pathJoin root safe) skillMdName) && !force) = false := by
        cases hb : (accessFile fs (pathJoin (pathJoin root safe) skillMdName) && !force) with
        | false => rfl
        | true => exact absurd hb hacc
      cases hdl : downloadSkillMd oracle owner repo skillName with
      | mk res att =>
        cases res with
        | none =>
          rw [install_notfound root now oracle fs owner repo skillName safe force att hsan hacc2 hdl]
          refine ⟨rfl, ?_⟩
          intro p hp
          exact absurd hp (by simp)
        | some cu =>
          obtain ⟨content, url⟩ := cu
          rw [install_fresh_success root now oracle fs owner repo skillName safe force
            content url att hsan hacc2 hdl]
          exact ⟨rfl, fun p hp => ⟨safe, rfl, (Option.some_inj.mp hp).symm⟩⟩

/-- C10 witness: a concrete fresh install reports the raw identifier
and the sanitized install path. -/
theorem c10_witness :
    ∃ safe, sanitizeSkillName "/s" "sk" = some safe ∧ "/s/sk" = pathJoin "/s" safe :=
  (c10_result_identifier_fields "/s" "t" oracleHit fsEmpty "o" "r" "sk" false).2 "/s/sk" (by decide)

end VibeClaw
